import Mathlib

/-!
Verification of the content pipeline of a Gatsby-based personal blog.

The development embeds, as executable Lean definitions:

* the `pre` handler of the MDX component-mapping table
  (`src/components/mdx/index.js`): the JS global regex replace
  `codeString.replace(/(\n+)_export(\s)/g, '$1export$2')` is modelled
  character-exactly over `List Char` (`fixExportAux`), and the handler's
  control flow — including the fact that `props.codeString` is read *before*
  the `if (props)` guard — is modelled by `preHandler`;
* the component-mapping table itself (`mdxComponents`);
* the `Post` page template (`src/templates/post.js`) as a function from the
  site configuration, site metadata and an MDX node to the list of semantic
  content blocks of the produced page (`renderPost`); presentational chrome
  (CSS, `Layout`, `SEO`, `<br/>` spacers) is not part of the block model;
* the `Footer` component (`src/components/Footer.js`) as `footerRender`,
  with the system-clock year passed explicitly;
* the page generator's previous/next neighbour computation, modelled from
  the specification (the gatsby-node generator itself is not among the
  repository files available here).
-/

namespace Joefiorini

/-- The JS regex character class `\s`, character for character
(MDN: space, tab, line feed, vertical tab, form feed, carriage return,
no-break space, ogham space mark, the en-quad..hair-space range, line and
paragraph separators, narrow no-break space, medium mathematical space,
ideographic space, byte-order mark). -/
def jsWs (c : Char) : Bool :=
  c = ' ' || c = '\t' || c = '\n' || c = '\x0b' || c = '\x0c' || c = '\r' ||
  c = '\u00a0' || c = '\u1680' || ('\u2000' ≤ c && c ≤ '\u200a') ||
  c = '\u2028' || c = '\u2029' || c = '\u202f' || c = '\u205f' ||
  c = '\u3000' || c = '\ufeff'

/-- After a maximal newline run, the regex `(\n+)_export(\s)` requires the
literal `_export` followed by one `\s` character.  `matchTail X` returns the
matched whitespace character and the remainder of the input after the whole
match when `X` begins with `_export` plus whitespace, and `none` otherwise. -/
def matchTail : List Char → Option (Char × List Char)
  | c0 :: c1 :: c2 :: c3 :: c4 :: c5 :: c6 :: c :: rest =>
    if c0 = '_' ∧ c1 = 'e' ∧ c2 = 'x' ∧ c3 = 'p' ∧ c4 = 'o' ∧ c5 = 'r' ∧ c6 = 't' ∧ jsWs c
    then some (c, rest) else none
  | _ => none

/-- Length of the maximal leading newline run (what the greedy `\n+` consumes
when the regex attempts a match at the current position). -/
def nlRun : List Char → Nat
  | [] => 0
  | c :: rest => if c = '\n' then nlRun rest + 1 else 0

/-- The replacement text `export` of `'$1export$2'` (between the kept
newline run `$1` and the kept whitespace `$2`). -/
def exportWord : List Char := 'e' :: 'x' :: 'p' :: 'o' :: 'r' :: 't' :: []

/-- One left-to-right pass of the JS global replace
`.replace(/(\n+)_export(\s)/g, '$1export$2')`, with explicit fuel so the
definition is structural (the fuel is immaterial once it covers the input
length, see `fixGo_fuel`).  At a newline the engine's greedy `\n+` takes the
maximal run; a match consumes the run, `_export` and the trailing whitespace
character, and scanning resumes after the consumed text — exactly the
`lastIndex` behaviour of a JS global replace. -/
def fixGo : Nat → List Char → List Char
  | 0, l => l
  | _ + 1, [] => []
  | fuel + 1, c :: rest =>
    if c = '\n' then
      match matchTail (rest.drop (nlRun rest)) with
      | some (ws, rest2) =>
        List.replicate (nlRun rest + 1) '\n' ++ exportWord ++ ws :: fixGo fuel rest2
      | none => c :: fixGo fuel rest
    else c :: fixGo fuel rest

/-- The legacy-export rewrite of the `pre` handler, on the character list of
the code string. -/
def fixExportAux (l : List Char) : List Char := fixGo l.length l

/-- `props.codeString.replace(/(\n+)_export(\s)/g, '$1export$2')`. -/
def fixExport (s : String) : String := ⟨fixExportAux s.data⟩

/-- `hasLegacy l` holds exactly when somewhere in `l` an `_export` occurrence
is immediately preceded by a newline and immediately followed by a `\s`
whitespace character — i.e. when the regex `(\n+)_export(\s)` has a match. -/
def hasLegacy : List Char → Bool
  | [] => false
  | c :: rest => (c = '\n' && (matchTail rest).isSome) || hasLegacy rest

/-- The legacy pattern of the specification's round-trip property:
newline, newline, `_export`, space. -/
def specLegacyPat : List Char :=
  '\n' :: '\n' :: '_' :: 'e' :: 'x' :: 'p' :: 'o' :: 'r' :: 't' :: ' ' :: []

/-- What the specification's legacy pattern becomes after the rewrite:
newline, newline, `export`, space. -/
def specFixedPat : List Char :=
  '\n' :: '\n' :: 'e' :: 'x' :: 'p' :: 'o' :: 'r' :: 't' :: ' ' :: []

/-- Two overlapping occurrences of the rewritten pattern: the whitespace
consumed by a first match is the newline the second occurrence needs. -/
def overlapPat : List Char :=
  '\n' :: '_' :: 'e' :: 'x' :: 'p' :: 'o' :: 'r' :: 't' ::
  '\n' :: '_' :: 'e' :: 'x' :: 'p' :: 'o' :: 'r' :: 't' :: []

/-- The props mdx-utils' `preToCodeBlock` builds for a detected code block. -/
structure CodeProps where
  codeString : String
  className : String
  language : String
deriving DecidableEq

/-- The props of a `pre` node: the model keeps exactly what `preToCodeBlock`
inspects — whether the `pre` element has an MDX `code` child and, if so,
which code-block props that child yields. -/
structure PreProps where
  codeChild : Option CodeProps
deriving DecidableEq

/-- Model of `preToCodeBlock` from the third-party `mdx-utils` package: it
returns the code-block props when the `pre` element's child is an MDX `code`
element, and JS `undefined` (here `none`) for a bare `pre` without a
recognized code fence. -/
def preToCodeBlock (p : PreProps) : Option CodeProps := p.codeChild

/-- A thrown JS exception. -/
inductive JsError where
  | typeError (message : String)
deriving DecidableEq

/-- What the `pre` handler can render. -/
inductive PreRendered where
  | code (props : CodeProps)
  | plainPre (props : PreProps)
deriving DecidableEq

/-- The `pre` handler of the component mapping table, statement by statement:

    const props = preToCodeBlock(preProps)
    props.codeString = props.codeString.replace(/(\n+)_export(\s)/g, '$1export$2')
    if (props) { return <Code {...props} /> } else { return <pre {...preProps} /> }

When `preToCodeBlock` yields `undefined`, the member access
`props.codeString` on the second line throws a `TypeError` before the
`if (props)` guard is ever reached; when it yields an object, the object is
truthy, so the `else` fallback is dead in that case too. -/
def preHandler (preProps : PreProps) : Except JsError PreRendered :=
  match preToCodeBlock preProps with
  | none =>
    Except.error (JsError.typeError "Cannot read property 'codeString' of undefined")
  | some props =>
    let fixed : CodeProps := { props with codeString := fixExport props.codeString }
    if (some fixed).isSome then Except.ok (PreRendered.code fixed)
    else Except.ok (PreRendered.plainPre preProps)

/-- `true` exactly on the handler's fallback rendering (its `else` branch). -/
def isFallback : Except JsError PreRendered → Bool
  | Except.ok (PreRendered.plainPre _) => true
  | _ => false

/-- The markdown node kinds an MDX renderer dispatches on (the element names
MDX emits for standard markdown constructs). -/
inductive MdxTag where
  | h1
  | h2
  | h3
  | p
  | pre
  | ul
  | ol
  | li
  | blockquote
  | anchor
  | img
  | em
  | strong
  | hr
deriving DecidableEq

/-- The specialised renderers the mapping table can select. -/
inductive MappedComponent where
  | title
  | subtitle
  | paragraph
  | codeBlock
deriving DecidableEq

/-- The component mapping table (the default export of the MDX components
module): entries for exactly `h1` (Title), `h2` (Subtitle), `p` (Paragraph)
and `pre` (the code handler); any other node kind has no entry and is left
to the MDX engine's built-in default rendering. -/
def mdxComponents : MdxTag → Option MappedComponent
  | MdxTag.h1 => some MappedComponent.title
  | MdxTag.h2 => some MappedComponent.subtitle
  | MdxTag.p => some MappedComponent.paragraph
  | MdxTag.pre => some MappedComponent.codeBlock
  | _ => none

/-- A processed responsive image (a gatsby-image `fluid` object); opaque. -/
structure FluidImage where
  src : String
deriving DecidableEq

structure ChildImageSharp where
  fluid : FluidImage
deriving DecidableEq

/-- A frontmatter `banner` value after the GraphQL image transformation. -/
structure BannerImage where
  childImageSharp : ChildImageSharp
deriving DecidableEq

/-- The frontmatter fields the `Post` template reads. -/
structure Frontmatter where
  title : String
  date : Option String
  banner : Option BannerImage
  video_url : Option String
  video_teaser : Option String
  slug : String
deriving DecidableEq

/-- The MDX node handed to the template (`mdx.frontmatter`, `mdx.code.body`). -/
structure MdxNode where
  frontmatter : Frontmatter
  codeBody : String
deriving DecidableEq

/-- `site.siteMetadata` as consumed by the template: the banner's alt text
joins the keywords. -/
structure SiteData where
  keywords : List String
deriving DecidableEq

/-- The fields of the configuration store (`config/website.js`) the post
template consumes. -/
structure SiteConfig where
  siteUrl : String
  twitterHandle : String
deriving DecidableEq

/-- The repository's configured values: `siteUrl` (canonical site URL, no
trailing slash) and `twitterHandle`. -/
def websiteConfig : SiteConfig :=
  { siteUrl := "https://joefiorini.com", twitterHandle := "@joegrammer2" }

/-- JS truthiness of an optional string prop: `undefined`/`null` and the
empty string are falsy, every other string is truthy.  `strVal` returns the
string exactly when the JS value is truthy. -/
def strVal : Option String → Option String
  | none => none
  | some s => if s = "" then none else some s

/-- One semantic content block of the produced post page.  CSS, the layout
shell, SEO tags and `<br/>` spacers are presentation, not content, and are
not part of the block model. -/
inductive Block where
  | titleH1 (title : String)
  | dateH3 (date : String)
  | bannerImg (sizes : FluidImage) (alt : String)
  | videoCallout (url : String) (teaser : Option String)
  | bodyMdx (code : String)
  | shareBlock (url : String) (title : String) (twitterHandle : String)
deriving DecidableEq

def Block.isBanner : Block → Bool
  | Block.bannerImg _ _ => true
  | _ => false

def Block.isVideo : Block → Bool
  | Block.videoCallout _ _ => true
  | _ => false

/-- The `Post` page template, as the ordered list of content blocks it
renders: the `h1` title; `date && <h3>{date}</h3>`; `banner && <Img
sizes={banner.childImageSharp.fluid} alt={keywords.join(', ')}/>`;
`videoUrl ? <Aside>… videoTeaser ? <p>{videoTeaser}</p> : null …</Aside>
: null`; the MDX body; and `<Share url={config.siteUrl + '/' + slug + '/'}
title={title} twitterHandle={config.twitterHandle}/>`.  The destructured
`pageContext.next`/`pageContext.prev` of the source are unused by the
template body and are omitted here. -/
def renderPost (config : SiteConfig) (site : SiteData) (mdx : MdxNode) : List Block :=
  let fm := mdx.frontmatter
  [Block.titleH1 fm.title]
  ++ (match strVal fm.date with
      | some d => [Block.dateH3 d]
      | none => [])
  ++ (match fm.banner with
      | some b =>
        [Block.bannerImg b.childImageSharp.fluid (String.intercalate ", " site.keywords)]
      | none => [])
  ++ (match strVal fm.video_url with
      | some u => [Block.videoCallout u (strVal fm.video_teaser)]
      | none => [])
  ++ [Block.bodyMdx mdx.codeBody]
  ++ [Block.shareBlock (config.siteUrl ++ "/" ++ fm.slug ++ "/") fm.title
        config.twitterHandle]

/-- The subscribe-form section of the footer: it always holds the
`SubscribeForm`, and holds the `HireMe` block exactly when `isPost` is
truthy. -/
structure SubscribeSection where
  hireMe : Bool
deriving DecidableEq

/-- The rendered footer. -/
structure FooterView where
  subscribe : Option SubscribeSection
  copyright : Option String
  socialLinks : List String
deriving DecidableEq

/-- The `Footer` component.  Its props are `author`, `noSubscribeForm` and
`isPost`; `new Date().getFullYear()` reads the system clock, so the current
calendar year is an explicit extra input of the model.  The copyright line
is `author && (author + " © " + currentYear)`; the subscribe section is
`!noSubscribeForm && (isPost && HireMe, SubscribeForm)`. -/
def footerRender (author : Option String) (noSubscribeForm : Bool) (isPost : Bool)
    (currentYear : Nat) : FooterView :=
  { subscribe := if noSubscribeForm then none else some { hireMe := isPost }
    copyright := (strVal author).map (fun a => a ++ " © " ++ toString currentYear)
    socialLinks := ["Twitter", "GitHub", "LinkedIn", "YouTube"] }

/-- Whether the rendered footer shows the `HireMe` block. -/
def FooterView.showsHireMe (f : FooterView) : Bool :=
  match f.subscribe with
  | some s => s.hireMe
  | none => false

/-- Modelled from the spec: a loaded content record as the page generator
sees it (the gatsby-node page-generator file is not among the repository
files available here; §3 of the specification describes the record:
"unique slug …, publication date (calendar date), …, published (boolean)").
A calendar date `YYYY-MM-DD` is encoded as the number `YYYYMMDD`, whose
numeric order is chronological order. -/
structure ContentRecord where
  slug : String
  date : Nat
  published : Bool
deriving DecidableEq

/-- Modelled from the spec (§3, NavigationLink): the chronological order on
records, "by publication date, strict ordering, ties broken by slug". -/
def recordLe (a b : ContentRecord) : Prop :=
  a.date < b.date ∨ (a.date = b.date ∧ a.slug ≤ b.slug)

instance : DecidableRel recordLe := fun a b =>
  inferInstanceAs (Decidable (a.date < b.date ∨ (a.date = b.date ∧ a.slug ≤ b.slug)))

instance : IsTotal ContentRecord recordLe where
  total a b := by
    rcases lt_trichotomy a.date b.date with h | h | h
    · exact Or.inl (Or.inl h)
    · rcases le_total a.slug b.slug with hs | hs
      · exact Or.inl (Or.inr ⟨h, hs⟩)
      · exact Or.inr (Or.inr ⟨h.symm, hs⟩)
    · exact Or.inr (Or.inl h)

instance : IsTrans ContentRecord recordLe where
  trans a b c hab hbc := by
    rcases hab with h1 | ⟨h1, h1s⟩
    · rcases hbc with h2 | ⟨h2, -⟩
      · exact Or.inl (h1.trans h2)
      · exact Or.inl (h2 ▸ h1)
    · rcases hbc with h2 | ⟨h2, h2s⟩
      · exact Or.inl (h1 ▸ h2)
      · exact Or.inr ⟨h1.trans h2, h1s.trans h2s⟩

/-- Modelled from the spec (§4.4): one generated page — the record and its
chronological previous/next neighbours. -/
structure GeneratedPage where
  record : ContentRecord
  prev : Option ContentRecord
  next : Option ContentRecord
deriving DecidableEq

/-- Walk the chronologically sorted records, linking each one to its
neighbours. -/
def linkPages : Option ContentRecord → List ContentRecord → List GeneratedPage
  | _, [] => []
  | prevRec, r :: rest =>
    { record := r, prev := prevRec, next := rest.head? } :: linkPages (some r) rest

/-- Modelled from the spec (§4.4): the page generator keeps the records with
`published = true`, orders them by ascending publication date (ties broken
by slug) and produces one page per record with its chronological
previous/next neighbours. -/
def generatePages (records : List ContentRecord) : List GeneratedPage :=
  linkPages none (List.insertionSort recordLe (records.filter (·.published)))

theorem hasLegacy_cons (c : Char) (rest : List Char) :
    hasLegacy (c :: rest) = ((c = '\n' && (matchTail rest).isSome) || hasLegacy rest) := rfl

theorem matchTail_shape {X : List Char} {ws : Char} {r : List Char}
    (h : matchTail X = some (ws, r)) :
    X = '_' :: 'e' :: 'x' :: 'p' :: 'o' :: 'r' :: 't' :: ws :: r ∧ jsWs ws = true := by
  match X with
  | [] => simp [matchTail] at h
  | [_] => simp [matchTail] at h
  | [_, _] => simp [matchTail] at h
  | [_, _, _] => simp [matchTail] at h
  | [_, _, _, _] => simp [matchTail] at h
  | [_, _, _, _, _] => simp [matchTail] at h
  | [_, _, _, _, _, _] => simp [matchTail] at h
  | [_, _, _, _, _, _, _] => simp [matchTail] at h
  | c0 :: c1 :: c2 :: c3 :: c4 :: c5 :: c6 :: c :: rest =>
    rw [matchTail] at h
    split at h
    · rename_i hcond
      obtain ⟨h0, h1, h2, h3, h4, h5, h6, hws⟩ := hcond
      cases h
      subst h0 h1 h2 h3 h4 h5 h6
      exact ⟨rfl, hws⟩
    · exact absurd h (by simp)

theorem matchTail_expWord (c : Char) (r : List Char) :
    matchTail ('_' :: 'e' :: 'x' :: 'p' :: 'o' :: 'r' :: 't' :: c :: r) =
      if jsWs c then some (c, r) else none := by
  rw [matchTail]
  simp

theorem matchTail_not_us {X : List Char} {c : Char} {t : List Char}
    (hx : X = c :: t) (hc : c ≠ '_') : matchTail X = none := by
  cases h : matchTail X with
  | none => rfl
  | some v =>
    obtain ⟨ws, r⟩ := v
    obtain ⟨hshape, -⟩ := matchTail_shape h
    rw [hx] at hshape
    cases hshape
    exact absurd rfl hc

theorem matchTail_len {X : List Char} {ws : Char} {r : List Char}
    (h : matchTail X = some (ws, r)) : r.length + 8 = X.length := by
  obtain ⟨hx, -⟩ := matchTail_shape h
  subst hx
  simp

theorem fixGo_fuel (f : Nat) :
    ∀ (g : Nat) (l : List Char), l.length ≤ f → l.length ≤ g → fixGo f l = fixGo g l := by
  induction f with
  | zero =>
    intro g l hf _
    have : l = [] := List.eq_nil_of_length_eq_zero (Nat.le_zero.mp hf)
    subst this
    cases g <;> rfl
  | succ f ih =>
    intro g l hf hg
    match l with
    | [] => cases g <;> rfl
    | c :: rest =>
      match g with
      | 0 => simp at hg
      | g + 1 =>
        simp only [List.length_cons, Nat.add_le_add_iff_right] at hf hg
        simp only [fixGo]
        by_cases hc : c = '\n'
        · simp only [if_pos hc]
          cases hm : matchTail (rest.drop (nlRun rest)) with
          | none => dsimp only; rw [ih g rest hf hg]
          | some v =>
            obtain ⟨ws, rest2⟩ := v
            dsimp only
            have hlen : rest2.length + 8 = (rest.drop (nlRun rest)).length := matchTail_len hm
            rw [List.length_drop] at hlen
            rw [ih g rest2 (by omega) (by omega)]
        · simp only [if_neg hc]
          rw [ih g rest hf hg]

theorem fix_nil : fixExportAux [] = [] := rfl

theorem fix_cons_ne {c : Char} (rest : List Char) (h : c ≠ '\n') :
    fixExportAux (c :: rest) = c :: fixExportAux rest := by
  unfold fixExportAux
  simp only [List.length_cons, fixGo, if_neg h]

theorem fix_nl_none (rest : List Char) (h : matchTail (rest.drop (nlRun rest)) = none) :
    fixExportAux ('\n' :: rest) = '\n' :: fixExportAux rest := by
  unfold fixExportAux
  simp only [List.length_cons, fixGo, h, if_true, reduceIte]

theorem fix_nl_some (rest : List Char) (ws : Char) (rest2 : List Char)
    (h : matchTail (rest.drop (nlRun rest)) = some (ws, rest2)) :
    fixExportAux ('\n' :: rest) =
      List.replicate (nlRun rest + 1) '\n' ++ exportWord ++ ws :: fixExportAux rest2 := by
  have hlen : rest2.length + 8 = (rest.drop (nlRun rest)).length := matchTail_len h
  rw [List.length_drop] at hlen
  unfold fixExportAux
  simp only [List.length_cons, fixGo, h, if_true, reduceIte]
  rw [fixGo_fuel rest.length rest2.length rest2 (by omega) (Nat.le_refl _)]

theorem fix_head (l : List Char) : (fixExportAux l).head? = l.head? := by
  match l with
  | [] => rfl
  | c :: rest =>
    by_cases hc : c = '\n'
    · subst hc
      cases hm : matchTail (rest.drop (nlRun rest)) with
      | none => rw [fix_nl_none rest hm]; rfl
      | some v =>
        obtain ⟨ws, rest2⟩ := v
        rw [fix_nl_some rest ws rest2 hm]
        simp [List.replicate_succ]
    · rw [fix_cons_ne rest hc]; rfl

theorem fix_step {X : List Char} {c : Char} {S : List Char}
    (h : fixExportAux X = c :: S) (hc : c ≠ '\n') :
    ∃ X', X = c :: X' ∧ fixExportAux X' = S := by
  match X with
  | [] => rw [fix_nil] at h; cases h
  | d :: R =>
    by_cases hd : d = '\n'
    · subst hd
      cases hm : matchTail (R.drop (nlRun R)) with
      | none =>
        rw [fix_nl_none R hm] at h
        injection h with h1 h2
        exact absurd h1.symm hc
      | some v =>
        obtain ⟨ws, r2⟩ := v
        rw [fix_nl_some R ws r2 hm, List.replicate_succ] at h
        injection h with h1 h2
        exact absurd h1.symm hc
    · rw [fix_cons_ne R hd] at h
      injection h with h1 h2
      subst h1
      exact ⟨R, rfl, h2⟩

theorem fix_us_word (Y : List Char) :
    fixExportAux ('_' :: 'e' :: 'x' :: 'p' :: 'o' :: 'r' :: 't' :: Y) =
      '_' :: 'e' :: 'x' :: 'p' :: 'o' :: 'r' :: 't' :: fixExportAux Y := by
  rw [fix_cons_ne _ (by decide), fix_cons_ne _ (by decide), fix_cons_ne _ (by decide),
    fix_cons_ne _ (by decide), fix_cons_ne _ (by decide), fix_cons_ne _ (by decide),
    fix_cons_ne _ (by decide)]

theorem fix_us_word_rev {X Z : List Char}
    (h : fixExportAux X = '_' :: 'e' :: 'x' :: 'p' :: 'o' :: 'r' :: 't' :: Z) :
    ∃ Y, X = '_' :: 'e' :: 'x' :: 'p' :: 'o' :: 'r' :: 't' :: Y ∧ fixExportAux Y = Z := by
  obtain ⟨X1, hx1, h1⟩ := fix_step h (by decide)
  obtain ⟨X2, hx2, h2⟩ := fix_step h1 (by decide)
  obtain ⟨X3, hx3, h3⟩ := fix_step h2 (by decide)
  obtain ⟨X4, hx4, h4⟩ := fix_step h3 (by decide)
  obtain ⟨X5, hx5, h5⟩ := fix_step h4 (by decide)
  obtain ⟨X6, hx6, h6⟩ := fix_step h5 (by decide)
  obtain ⟨X7, hx7, h7⟩ := fix_step h6 (by decide)
  refine ⟨X7, ?_, h7⟩
  rw [hx1, hx2, hx3, hx4, hx5, hx6, hx7]

theorem matchTail_fix_none {X : List Char} (h : matchTail X = none) :
    matchTail (fixExportAux X) = none := by
  cases hm : matchTail (fixExportAux X) with
  | none => rfl
  | some v =>
    obtain ⟨w, r⟩ := v
    obtain ⟨hshape, hws⟩ := matchTail_shape hm
    obtain ⟨Y, hXY, hfy⟩ := fix_us_word_rev hshape
    have hh := fix_head Y
    rw [hfy] at hh
    match Y, hh with
    | y :: Y', hh =>
      injection hh with hh1
      subst hh1
      rw [hXY, matchTail_expWord, if_pos hws] at h
      cases h

theorem nlRun_take (l : List Char) : l.take (nlRun l) = List.replicate (nlRun l) '\n' := by
  induction l with
  | nil => rfl
  | cons c rest ih =>
    by_cases hc : c = '\n'
    · subst hc
      simp [nlRun, List.replicate_succ, ih]
    · simp [nlRun, hc]

theorem nlRun_decomp (l : List Char) :
    l = List.replicate (nlRun l) '\n' ++ l.drop (nlRun l) := by
  conv_lhs => rw [← List.take_append_drop (nlRun l) l]
  rw [nlRun_take]

theorem nlRun_pos_head {l : List Char} (h : 0 < nlRun l) : ∃ t, l = '\n' :: t := by
  match l with
  | [] => simp [nlRun] at h
  | c :: t =>
    by_cases hc : c = '\n'
    · exact ⟨t, by rw [hc]⟩
    · rw [nlRun, if_neg hc] at h
      omega

theorem replicate_cons_comm (m : Nat) (T : List Char) :
    '\n' :: (List.replicate m '\n' ++ T) = List.replicate m '\n' ++ ('\n' :: T) := by
  rw [← List.cons_append, ← List.replicate_succ, List.replicate_succ', List.append_assoc]
  rfl

theorem infix_cons_lift {p l : List Char} (c : Char) (h : p <:+: l) : p <:+: c :: l := by
  obtain ⟨s, t, ht⟩ := h
  exact ⟨c :: s, t, by rw [← ht]; rfl⟩

theorem infix_append_left {p W : List Char} (A : List Char) (h : p <:+: W) :
    p <:+: A ++ W := by
  obtain ⟨s, t, ht⟩ := h
  exact ⟨A ++ s, t, by rw [← ht]; simp⟩

theorem infix_split_cons {p : List Char} {c : Char} {l : List Char} (h : p <:+: c :: l) :
    p <+: c :: l ∨ p <:+: l := by
  obtain ⟨s, t, ht⟩ := h
  match s, ht with
  | [], ht => exact Or.inl ⟨t, by simpa using ht⟩
  | d :: s, ht =>
    rw [List.cons_append, List.cons_append] at ht
    injection ht with h1 h2
    exact Or.inr ⟨s, t, h2⟩

theorem hasLegacy_replicate_match (m : Nat) (W : List Char)
    (hsome : (matchTail W).isSome = true) :
    hasLegacy (List.replicate (m + 1) '\n' ++ W) = true := by
  induction m with
  | zero => simp [hasLegacy, hsome]
  | succ m ih =>
    rw [List.replicate_succ, List.cons_append, hasLegacy, ih]
    simp

theorem hasLegacy_of_match {rest : List Char}
    (hm : matchTail (rest.drop (nlRun rest)) ≠ none) : hasLegacy ('\n' :: rest) = true := by
  have hsome : (matchTail (rest.drop (nlRun rest))).isSome = true := by
    cases hmt : matchTail (rest.drop (nlRun rest)) with
    | none => exact absurd hmt hm
    | some v => rfl
  have heq : '\n' :: rest =
      List.replicate (nlRun rest + 1) '\n' ++ rest.drop (nlRun rest) := by
    rw [List.replicate_succ, List.cons_append, ← nlRun_decomp]
  rw [heq]
  exact hasLegacy_replicate_match _ _ hsome

theorem hasLegacy_cons_false {c : Char} {rest : List Char}
    (h : hasLegacy (c :: rest) = false) :
    hasLegacy rest = false ∧ (c = '\n' → matchTail rest = none) := by
  rw [hasLegacy, Bool.or_eq_false_iff, Bool.and_eq_false_iff] at h
  obtain ⟨h1, h2⟩ := h
  refine ⟨h2, fun hc => ?_⟩
  cases h1 with
  | inl h1 => simp [hc] at h1
  | inr h1 =>
    cases hmt : matchTail rest with
    | none => rfl
    | some v => rw [hmt] at h1; cases h1

theorem hasLegacy_iff (l : List Char) :
    hasLegacy l = true ↔
      ∃ a w b, jsWs w = true ∧
        l = a ++ '\n' :: '_' :: 'e' :: 'x' :: 'p' :: 'o' :: 'r' :: 't' :: w :: b := by
  induction l with
  | nil =>
    simp only [hasLegacy]
    constructor
    · intro h; cases h
    · rintro ⟨a, w, b, -, heq⟩
      exact absurd heq (by simp)
  | cons c rest ih =>
    rw [hasLegacy_cons]
    constructor
    · intro h
      rcases (Bool.or_eq_true _ _).mp h with hguard | htail
      · rw [Bool.and_eq_true] at hguard
        obtain ⟨hc, hsome⟩ := hguard
        have hc2 : c = '\n' := by simpa using hc
        subst hc2
        obtain ⟨⟨w, r⟩, hmt⟩ := Option.isSome_iff_exists.mp hsome
        obtain ⟨hshape, hws⟩ := matchTail_shape hmt
        exact ⟨[], w, r, hws, by rw [hshape]; rfl⟩
      · obtain ⟨a, w, b, hws, heq⟩ := ih.mp htail
        exact ⟨c :: a, w, b, hws, by rw [heq]; rfl⟩
    · rintro ⟨a, w, b, hws, heq⟩
      cases a with
      | nil =>
        simp only [List.nil_append] at heq
        injection heq with h1 h2
        subst h1
        rw [h2, matchTail_expWord, if_pos hws]
        simp
      | cons x a2 =>
        rw [List.cons_append] at heq
        injection heq with h1 h2
        have htail := ih.mpr ⟨a2, w, b, hws, h2⟩
        simp [htail]

theorem fix_of_no_legacy : ∀ l : List Char, hasLegacy l = false → fixExportAux l = l := by
  intro l
  induction l with
  | nil => intro _; rfl
  | cons c rest ih =>
    intro h
    obtain ⟨hr, hcnl⟩ := hasLegacy_cons_false h
    by_cases hc : c = '\n'
    · subst hc
      have hmt : matchTail (rest.drop (nlRun rest)) = none := by
        by_contra hne
        rw [hasLegacy_of_match hne] at h
        cases h
      rw [fix_nl_none rest hmt, ih hr]
    · rw [fix_cons_ne rest hc, ih hr]

theorem hasLegacy_output (k : Nat) (ws : Char) (Z : List Char)
    (hz : hasLegacy Z = false) (hmz : ws = '\n' → matchTail Z = none) :
    hasLegacy (List.replicate k '\n' ++ exportWord ++ ws :: Z) = false := by
  induction k with
  | zero =>
    by_cases hws : ws = '\n'
    · subst hws
      simp [exportWord, hasLegacy, hz, hmz rfl]
    · simp [exportWord, hasLegacy, hz, hws]
  | succ k ih =>
    have hnone : matchTail (List.replicate k '\n' ++ exportWord ++ ws :: Z) = none := by
      cases k with
      | zero => exact matchTail_not_us rfl (by decide)
      | succ k => rw [List.replicate_succ]; exact matchTail_not_us rfl (by decide)
    have hstep : List.replicate (k + 1) '\n' ++ exportWord ++ ws :: Z =
        '\n' :: (List.replicate k '\n' ++ exportWord ++ ws :: Z) := by
      simp [List.replicate_succ]
    rw [hstep, hasLegacy_cons, hnone, ih]
    simp

theorem no_legacy_fix (n : Nat) :
    ∀ l : List Char, l.length ≤ n → ¬(overlapPat <:+: l) →
      hasLegacy (fixExportAux l) = false := by
  induction n with
  | zero =>
    intro l hl _
    have : l = [] := List.eq_nil_of_length_eq_zero (Nat.le_zero.mp hl)
    subst this
    rfl
  | succ n ih =>
    intro l hl hov
    match l with
    | [] => rfl
    | c :: rest =>
      rw [List.length_cons, Nat.add_le_add_iff_right] at hl
      have hrest_ov : ¬(overlapPat <:+: rest) := fun h => hov (infix_cons_lift c h)
      by_cases hc : c = '\n'
      · subst hc
        cases hm : matchTail (rest.drop (nlRun rest)) with
        | none =>
          rw [fix_nl_none rest hm]
          have h1 : matchTail rest = none := by
            cases hnr : nlRun rest with
            | zero => rw [hnr, List.drop_zero] at hm; exact hm
            | succ m =>
              obtain ⟨t, ht⟩ := nlRun_pos_head (l := rest) (by omega)
              exact matchTail_not_us ht (by decide)
          have h2 := matchTail_fix_none h1
          have h3 := ih rest hl hrest_ov
          simp [hasLegacy, h2, h3]
        | some v =>
          obtain ⟨ws, rest2⟩ := v
          obtain ⟨hdrop, hws⟩ := matchTail_shape hm
          have hlen := matchTail_len hm
          rw [List.length_drop] at hlen
          rw [fix_nl_some rest ws rest2 hm]
          -- rest2 is a suffix of rest, so the overlap ban carries over to it
          have hrest_eq : rest = List.replicate (nlRun rest) '\n' ++
              ('_' :: 'e' :: 'x' :: 'p' :: 'o' :: 'r' :: 't' :: ws :: rest2) := by
            conv_lhs => rw [nlRun_decomp rest]
            rw [hdrop]
          have hrest2_inf : rest2 <:+: rest := by
            refine ⟨List.replicate (nlRun rest) '\n' ++
              ('_' :: 'e' :: 'x' :: 'p' :: 'o' :: 'r' :: 't' :: ws :: []), [], ?_⟩
            conv_rhs => rw [hrest_eq]
            simp
          have hrest2_ov : ¬(overlapPat <:+: rest2) := fun h =>
            hrest_ov (h.trans hrest2_inf)
          have hfix2 := ih rest2 (by omega) hrest2_ov
          refine hasLegacy_output (nlRun rest + 1) ws (fixExportAux rest2) hfix2 ?_
          intro hwsnl
          subst hwsnl
          cases hm2 : matchTail (fixExportAux rest2) with
          | none => rfl
          | some v2 =>
            obtain ⟨w2, r2⟩ := v2
            obtain ⟨hshape2, -⟩ := matchTail_shape hm2
            obtain ⟨Y, hY, -⟩ := fix_us_word_rev hshape2
            -- then the input contained newline, _export, newline, _export
            have hkey : List.replicate (nlRun rest) '\n' ++ overlapPat ++ Y =
                '\n' :: rest := by
              conv_rhs => rw [hrest_eq, hY]
              rw [replicate_cons_comm]
              simp [overlapPat]
            exact absurd ⟨List.replicate (nlRun rest) '\n', Y, hkey⟩ hov
      · rw [fix_cons_ne rest hc]
        have h3 := ih rest hl hrest_ov
        simp [hasLegacy, hc, h3]

theorem fix_idem_of_no_overlap (l : List Char) (h : ¬(overlapPat <:+: l)) :
    fixExportAux (fixExportAux l) = fixExportAux l :=
  fix_of_no_legacy _ (no_legacy_fix l.length l (Nat.le_refl _) h)

theorem infix_skip_one {c : Char} {l : List Char} (hc : c ≠ '\n')
    (h : specLegacyPat <:+: c :: l) : specLegacyPat <:+: l := by
  cases infix_split_cons h with
  | inl hpre =>
    simp only [specLegacyPat] at hpre
    rw [List.cons_prefix_cons] at hpre
    exact absurd hpre.1.symm hc
  | inr h => exact h

theorem infix_pos (k : Nat) :
    ∀ W : List Char, 1 ≤ k →
      specLegacyPat <:+:
        (List.replicate k '\n' ++ ('_' :: 'e' :: 'x' :: 'p' :: 'o' :: 'r' :: 't' :: W)) →
      (2 ≤ k ∧ ∃ b, W = ' ' :: b) ∨ specLegacyPat <:+: W := by
  induction k with
  | zero => intro W h0 _; omega
  | succ k ih =>
    intro W _ h
    rw [List.replicate_succ, List.cons_append] at h
    cases infix_split_cons h with
    | inr hinf =>
      cases k with
      | zero =>
        simp only [List.replicate_zero, List.nil_append] at hinf
        right
        exact infix_skip_one (by decide)
          (infix_skip_one (by decide)
            (infix_skip_one (by decide)
              (infix_skip_one (by decide)
                (infix_skip_one (by decide)
                  (infix_skip_one (by decide)
                    (infix_skip_one (by decide) hinf))))))
      | succ k' =>
        rcases ih W (by omega) hinf with ⟨h2, b, hb⟩ | hW
        · exact Or.inl ⟨by omega, b, hb⟩
        · exact Or.inr hW
    | inl hpre =>
      simp only [specLegacyPat] at hpre
      rw [List.cons_prefix_cons] at hpre
      obtain ⟨-, hpre⟩ := hpre
      cases k with
      | zero =>
        simp only [List.replicate_zero, List.nil_append] at hpre
        rw [List.cons_prefix_cons] at hpre
        exact absurd hpre.1 (by decide)
      | succ k' =>
        rw [List.replicate_succ, List.cons_append, List.cons_prefix_cons] at hpre
        obtain ⟨-, hpre⟩ := hpre
        cases k' with
        | zero =>
          simp only [List.replicate_zero, List.nil_append] at hpre
          rw [List.cons_prefix_cons] at hpre
          obtain ⟨-, hpre⟩ := hpre
          rw [List.cons_prefix_cons] at hpre
          obtain ⟨-, hpre⟩ := hpre
          rw [List.cons_prefix_cons] at hpre
          obtain ⟨-, hpre⟩ := hpre
          rw [List.cons_prefix_cons] at hpre
          obtain ⟨-, hpre⟩ := hpre
          rw [List.cons_prefix_cons] at hpre
          obtain ⟨-, hpre⟩ := hpre
          rw [List.cons_prefix_cons] at hpre
          obtain ⟨-, hpre⟩ := hpre
          rw [List.cons_prefix_cons] at hpre
          obtain ⟨-, hpre⟩ := hpre
          obtain ⟨t, ht⟩ := hpre
          refine Or.inl ⟨by omega, t, ?_⟩
          simpa using ht.symm
        | succ k'' =>
          rw [List.replicate_succ, List.cons_append, List.cons_prefix_cons] at hpre
          exact absurd hpre.1 (by decide)

theorem fix_propagates (n : Nat) :
    ∀ l : List Char, l.length ≤ n → specLegacyPat <:+: l →
      specFixedPat <:+: fixExportAux l := by
  induction n with
  | zero =>
    intro l hl h
    have : l = [] := List.eq_nil_of_length_eq_zero (Nat.le_zero.mp hl)
    subst this
    obtain ⟨s, t, ht⟩ := h
    simp [specLegacyPat] at ht
  | succ n ih =>
    intro l hl h
    match l with
    | [] =>
      obtain ⟨s, t, ht⟩ := h
      simp [specLegacyPat] at ht
    | c :: rest =>
      rw [List.length_cons, Nat.add_le_add_iff_right] at hl
      by_cases hc : c = '\n'
      · subst hc
        cases hm : matchTail (rest.drop (nlRun rest)) with
        | none =>
          rw [fix_nl_none rest hm]
          cases infix_split_cons h with
          | inl hpre =>
            obtain ⟨t, ht⟩ := hpre
            simp only [specLegacyPat, List.cons_append, List.nil_append] at ht
            injection ht with h1 h2
            rw [← h2] at hm
            rw [show nlRun ('\n' :: '_' :: 'e' :: 'x' :: 'p' :: 'o' :: 'r' :: 't' :: ' ' :: t) = 1
              by simp [nlRun]] at hm
            rw [List.drop_one, List.tail_cons] at hm
            rw [matchTail_expWord, if_pos (by decide)] at hm
            cases hm
          | inr hinf => exact infix_cons_lift '\n' (ih rest hl hinf)
        | some v =>
          obtain ⟨ws, rest2⟩ := v
          obtain ⟨hdrop, hws⟩ := matchTail_shape hm
          have hlen := matchTail_len hm
          rw [List.length_drop] at hlen
          rw [fix_nl_some rest ws rest2 hm]
          have hrest_eq : rest = List.replicate (nlRun rest) '\n' ++
              ('_' :: 'e' :: 'x' :: 'p' :: 'o' :: 'r' :: 't' :: ws :: rest2) := by
            conv_lhs => rw [nlRun_decomp rest]
            rw [hdrop]
          have hl_eq : '\n' :: rest = List.replicate (nlRun rest + 1) '\n' ++
              ('_' :: 'e' :: 'x' :: 'p' :: 'o' :: 'r' :: 't' :: ws :: rest2) := by
            rw [List.replicate_succ, List.cons_append]
            conv_lhs => rw [hrest_eq]
          rw [hl_eq] at h
          rcases infix_pos (nlRun rest + 1) (ws :: rest2) (by omega) h with ⟨hk2, b, hwb⟩ | hW
          · -- the matched whitespace is the pattern's space and the run has ≥ 2 newlines
            injection hwb with hw1 hw2
            subst hw1
            obtain ⟨j, hj⟩ : ∃ j, nlRun rest + 1 = j + 2 := ⟨nlRun rest - 1, by omega⟩
            rw [hj]
            refine ⟨List.replicate j '\n', fixExportAux rest2, ?_⟩
            rw [show j + 2 = j + 1 + 1 from rfl, List.replicate_succ', List.replicate_succ']
            simp [specFixedPat, exportWord]
          · cases infix_split_cons hW with
            | inl hpre =>
              obtain ⟨t, ht⟩ := hpre
              simp only [specLegacyPat, List.cons_append, List.nil_append] at ht
              injection ht with h1 h2
              have hmt : matchTail (('_' :: 'e' :: 'x' :: 'p' :: 'o' :: 'r' :: 't' :: ' ' :: t).drop
                  (nlRun ('_' :: 'e' :: 'x' :: 'p' :: 'o' :: 'r' :: 't' :: ' ' :: t))) =
                  some (' ', t) := by
                rw [show nlRun ('_' :: 'e' :: 'x' :: 'p' :: 'o' :: 'r' :: 't' :: ' ' :: t) = 0
                  by simp [nlRun]]
                rw [List.drop_zero, matchTail_expWord, if_pos (by decide)]
              have hfix2 : fixExportAux rest2 =
                  '\n' :: ('e' :: 'x' :: 'p' :: 'o' :: 'r' :: 't' :: ' ' :: fixExportAux t) := by
                rw [← h2]
                rw [fix_nl_some _ ' ' t hmt]
                rw [show nlRun ('_' :: 'e' :: 'x' :: 'p' :: 'o' :: 'r' :: 't' :: ' ' :: t) = 0
                  by simp [nlRun]]
                simp [exportWord, List.replicate_succ]
              rw [hfix2, ← h1]
              refine ⟨List.replicate (nlRun rest + 1) '\n' ++ exportWord, fixExportAux t, ?_⟩
              simp [specFixedPat, exportWord]
            | inr hinf2 =>
              exact infix_append_left _ (infix_cons_lift ws (ih rest2 (by omega) hinf2))
      · rw [fix_cons_ne rest hc]
        cases infix_split_cons h with
        | inl hpre =>
          obtain ⟨t, ht⟩ := hpre
          simp only [specLegacyPat, List.cons_append, List.nil_append] at ht
          injection ht with h1 h2
          exact absurd h1.symm hc
        | inr hinf => exact infix_cons_lift c (ih rest hl hinf)


theorem linkPages_record_map :
    ∀ (front : Option ContentRecord) (s : List ContentRecord),
      (linkPages front s).map GeneratedPage.record = s := by
  intro front s
  induction s generalizing front with
  | nil => rfl
  | cons r rest ih => simp [linkPages, ih]

theorem linkPages_length (front : Option ContentRecord) (s : List ContentRecord) :
    (linkPages front s).length = s.length := by
  have h := linkPages_record_map front s
  calc (linkPages front s).length
      = ((linkPages front s).map GeneratedPage.record).length := (List.length_map _ _).symm
    _ = s.length := by rw [h]

theorem linkPages_decomp :
    ∀ (front : Option ContentRecord) (s : List ContentRecord) (p : GeneratedPage),
      p ∈ linkPages front s →
      ∃ a b, s = a ++ p.record :: b ∧ p.next = b.head? ∧
        ((a = [] ∧ p.prev = front) ∨ ∃ a' m, a = a' ++ [m] ∧ p.prev = some m) := by
  intro front s
  induction s generalizing front with
  | nil => intro p hp; simp [linkPages] at hp
  | cons r rest ih =>
    intro p hp
    rw [linkPages] at hp
    rcases List.mem_cons.mp hp with hp | hp
    · subst hp
      exact ⟨[], rest, rfl, rfl, Or.inl ⟨rfl, rfl⟩⟩
    · obtain ⟨a, b, hs, hnx, hpv⟩ := ih (some r) p hp
      refine ⟨r :: a, b, by rw [hs]; rfl, hnx, Or.inr ?_⟩
      rcases hpv with ⟨ha, hpv⟩ | ⟨a', m, ha, hpv⟩
      · exact ⟨[], r, by simp [ha], hpv⟩
      · exact ⟨r :: a', m, by rw [ha]; rfl, hpv⟩

/-- Neighbour links over an already-sorted record list with strictly
increasing dates: each next link is a record of the generated set with the
smallest strictly greater date, next is absent exactly on the latest record
(both directions), each previous link is a record of the generated set, and
prev is absent exactly on the earliest record (both directions). -/
theorem linkPages_sorted_spec (s : List ContentRecord)
    (hpair : s.Pairwise (fun a b => a.date < b.date)) :
    (∀ p ∈ linkPages (none : Option ContentRecord) s, ∀ nx, p.next = some nx →
        (∃ q ∈ linkPages (none : Option ContentRecord) s, q.record = nx)
        ∧ p.record.date < nx.date
        ∧ ∀ q ∈ linkPages (none : Option ContentRecord) s,
            p.record.date < q.record.date → nx.date ≤ q.record.date)
    ∧ (∀ p ∈ linkPages (none : Option ContentRecord) s, p.next = none →
        ∀ q ∈ linkPages (none : Option ContentRecord) s, q.record.date ≤ p.record.date)
    ∧ (∀ p ∈ linkPages (none : Option ContentRecord) s,
        (∀ q ∈ linkPages (none : Option ContentRecord) s,
          q.record.date ≤ p.record.date) → p.next = none)
    ∧ (∀ p ∈ linkPages (none : Option ContentRecord) s, ∀ m, p.prev = some m →
        ∃ q ∈ linkPages (none : Option ContentRecord) s, q.record = m)
    ∧ (∀ p ∈ linkPages (none : Option ContentRecord) s,
        (∀ q ∈ linkPages (none : Option ContentRecord) s,
          p.record.date ≤ q.record.date) → p.prev = none)
    ∧ (∀ p ∈ linkPages (none : Option ContentRecord) s, p.prev = none →
        ∀ q ∈ linkPages (none : Option ContentRecord) s,
          p.record.date ≤ q.record.date) := by
  have hmem_rec : ∀ q ∈ linkPages (none : Option ContentRecord) s, q.record ∈ s := by
    intro q hq
    rw [← linkPages_record_map none s]
    exact List.mem_map_of_mem _ hq
  have hrec_mem : ∀ m ∈ s,
      ∃ q ∈ linkPages (none : Option ContentRecord) s, q.record = m := by
    intro m hm
    rw [← linkPages_record_map none s] at hm
    exact List.mem_map.mp hm
  refine ⟨?_, ?_, ?_, ?_, ?_, ?_⟩
  · -- next link: a record of the set, with the smallest strictly greater date
    intro p hp nx hnx
    obtain ⟨a, b, hdec, hnext, -⟩ := linkPages_decomp none s p hp
    rw [hnext] at hnx
    obtain ⟨b', hb⟩ : ∃ b', b = nx :: b' := by
      cases b with
      | nil => cases hnx
      | cons x b2 =>
        rw [List.head?_cons] at hnx
        exact ⟨b2, by rw [Option.some_inj.mp hnx]⟩
    subst hb
    have hnx_in_s : nx ∈ s := by
      rw [hdec]
      exact List.mem_append_right _ (List.mem_cons_of_mem _ (List.mem_cons_self _ _))
    have hpair' := hpair
    rw [hdec, List.pairwise_append] at hpair'
    obtain ⟨-, hpair2, hcross⟩ := hpair'
    rw [List.pairwise_cons] at hpair2
    obtain ⟨hrec_lt, hpair3⟩ := hpair2
    rw [List.pairwise_cons] at hpair3
    obtain ⟨hnx_lt, -⟩ := hpair3
    refine ⟨hrec_mem nx hnx_in_s, hrec_lt nx (List.mem_cons_self _ _), ?_⟩
    intro q hq hlt
    have hqs : q.record ∈ s := hmem_rec q hq
    rw [hdec] at hqs
    rcases List.mem_append.mp hqs with hqa | hqb
    · exact absurd (hcross _ hqa _ (List.mem_cons_self _ _)) (lt_asymm hlt)
    · rcases List.mem_cons.mp hqb with hq1 | hqb
      · rw [hq1] at hlt; exact absurd hlt (lt_irrefl _)
      · rcases List.mem_cons.mp hqb with hq2 | hqb2
        · rw [hq2]
        · exact le_of_lt (hnx_lt _ hqb2)
  · -- no next link: latest date
    intro p hp hnone q hq
    obtain ⟨a, b, hdec, hnext, -⟩ := linkPages_decomp none s p hp
    rw [hnext] at hnone
    have hb : b = [] := by
      match b, hnone with
      | [], _ => rfl
    subst hb
    have hpair' := hpair
    rw [hdec, List.pairwise_append] at hpair'
    obtain ⟨-, -, hcross⟩ := hpair'
    have hqs : q.record ∈ s := hmem_rec q hq
    rw [hdec] at hqs
    rcases List.mem_append.mp hqs with hqa | hqb
    · exact le_of_lt (hcross _ hqa _ (List.mem_cons_self _ _))
    · rcases List.mem_cons.mp hqb with hq1 | hqb2
      · rw [hq1]
      · simp at hqb2
  · -- latest date: no next link
    intro p hp hmax
    obtain ⟨a, b, hdec, hnext, -⟩ := linkPages_decomp none s p hp
    cases hb : b with
    | nil => rw [hnext, hb]; rfl
    | cons n b2 =>
      exfalso
      have hn_in_s : n ∈ s := by
        rw [hdec, hb]
        exact List.mem_append_right _ (List.mem_cons_of_mem _ (List.mem_cons_self _ _))
      obtain ⟨qn, hqn, hqn_rec⟩ := hrec_mem n hn_in_s
      have hle : n.date ≤ p.record.date := by
        have h2 := hmax qn hqn
        rw [hqn_rec] at h2
        exact h2
      have hpair' := hpair
      rw [hdec, hb, List.pairwise_append] at hpair'
      obtain ⟨-, hpair2, -⟩ := hpair'
      rw [List.pairwise_cons] at hpair2
      obtain ⟨hlt, -⟩ := hpair2
      exact absurd (hlt n (List.mem_cons_self _ _)) (not_lt.mpr hle)
  · -- previous link: a record of the set
    intro p hp m hm
    obtain ⟨a, b, hdec, -, hprev⟩ := linkPages_decomp none s p hp
    rcases hprev with ⟨-, hprev⟩ | ⟨a', m', ha, hprev⟩
    · rw [hm] at hprev
      cases hprev
    · rw [hm] at hprev
      injection hprev with hmm
      subst hmm
      have hm_in_s : m ∈ s := by
        rw [hdec, ha]
        exact List.mem_append_left _
          (List.mem_append_right _ (List.mem_singleton_self m))
      exact hrec_mem m hm_in_s
  · -- earliest date: no previous link
    intro p hp hmin
    obtain ⟨a, b, hdec, -, hprev⟩ := linkPages_decomp none s p hp
    rcases hprev with ⟨-, hprev⟩ | ⟨a', m, ha, hprev⟩
    · exact hprev
    · exfalso
      have hm_in_a : m ∈ a := by
        rw [ha]
        exact List.mem_append_right _ (List.mem_singleton_self m)
      have hm_in_s : m ∈ s := by
        rw [hdec]
        exact List.mem_append_left _ hm_in_a
      obtain ⟨qm, hqm, hqm_rec⟩ := hrec_mem m hm_in_s
      have h1 : p.record.date ≤ m.date := by
        have h2 := hmin qm hqm
        rw [hqm_rec] at h2
        exact h2
      have hpair' := hpair
      rw [hdec, List.pairwise_append] at hpair'
      obtain ⟨-, -, hcross⟩ := hpair'
      exact absurd (hcross _ hm_in_a _ (List.mem_cons_self _ _)) (not_lt.mpr h1)
  · -- no previous link only on the earliest date
    intro p hp hnone q hq
    obtain ⟨a, b, hdec, -, hprev⟩ := linkPages_decomp none s p hp
    rcases hprev with ⟨ha, -⟩ | ⟨a', m, ha, hprev⟩
    · subst ha
      rw [List.nil_append] at hdec
      have hqs : q.record ∈ s := hmem_rec q hq
      rw [hdec] at hqs
      have hpair' := hpair
      rw [hdec, List.pairwise_cons] at hpair'
      obtain ⟨hlt, -⟩ := hpair'
      rcases List.mem_cons.mp hqs with hq1 | hqb
      · rw [hq1]
      · exact le_of_lt (hlt _ hqb)
    · rw [hprev] at hnone
      cases hnone

/-- The full neighbour-link specification of the modelled page generator, for
published records with pairwise distinct dates: one page per record; each
next link is a generated record with the smallest strictly greater date;
next is absent exactly on the latest record; each previous link is a
generated record; prev is absent exactly on the earliest record. -/
theorem generatePages_spec (rs : List ContentRecord)
    (hpub : ∀ r ∈ rs, r.published = true)
    (hnd : (rs.map ContentRecord.date).Nodup) :
    (generatePages rs).length = rs.length
    ∧ (∀ p ∈ generatePages rs, ∀ nx, p.next = some nx →
        (∃ q ∈ generatePages rs, q.record = nx)
        ∧ p.record.date < nx.date
        ∧ ∀ q ∈ generatePages rs, p.record.date < q.record.date →
            nx.date ≤ q.record.date)
    ∧ (∀ p ∈ generatePages rs, p.next = none →
        ∀ q ∈ generatePages rs, q.record.date ≤ p.record.date)
    ∧ (∀ p ∈ generatePages rs,
        (∀ q ∈ generatePages rs, q.record.date ≤ p.record.date) → p.next = none)
    ∧ (∀ p ∈ generatePages rs, ∀ m, p.prev = some m →
        ∃ q ∈ generatePages rs, q.record = m)
    ∧ (∀ p ∈ generatePages rs,
        (∀ q ∈ generatePages rs, p.record.date ≤ q.record.date) → p.prev = none)
    ∧ (∀ p ∈ generatePages rs, p.prev = none →
        ∀ q ∈ generatePages rs, p.record.date ≤ q.record.date) := by
  have hfil : rs.filter (·.published) = rs := List.filter_eq_self.mpr hpub
  have hperm : List.Perm (List.insertionSort recordLe (rs.filter (·.published))) rs := by
    rw [hfil]
    exact List.perm_insertionSort recordLe rs
  have hsort : List.Sorted recordLe (List.insertionSort recordLe (rs.filter (·.published))) :=
    List.sorted_insertionSort recordLe _
  have hnds : ((List.insertionSort recordLe (rs.filter (·.published))).map
      ContentRecord.date).Nodup :=
    ((hperm.map ContentRecord.date).nodup_iff).mpr hnd
  have hpair : (List.insertionSort recordLe (rs.filter (·.published))).Pairwise
      (fun a b => a.date < b.date) := by
    have h2 : (List.insertionSort recordLe (rs.filter (·.published))).Pairwise
        (fun a b => a.date ≠ b.date) := List.pairwise_map.mp hnds
    refine (hsort.and h2).imp ?_
    rintro a b ⟨hle, hne⟩
    rcases hle with h | ⟨h, -⟩
    · exact h
    · exact absurd h hne
  have hmain := linkPages_sorted_spec _ hpair
  have hlen : (generatePages rs).length = rs.length := by
    show (linkPages none _).length = _
    rw [linkPages_length, hperm.length_eq]
  exact ⟨hlen, hmain.1, hmain.2.1, hmain.2.2.1, hmain.2.2.2.1,
    hmain.2.2.2.2.1, hmain.2.2.2.2.2⟩

/-- Claim C1: the claim says that on a pre node with no extractable code
string the handler returns the default unstyled pre rendering and never
fails.  The code refutes it: `props.codeString` is dereferenced before the
`if (props)` guard, so on a bare pre block (`preToCodeBlock` yields
`undefined`) the handler throws a `TypeError`, and the fallback `<pre>`
branch is unreachable for every input. -/
theorem claim_C1_bare_pre_throws :
    preHandler ⟨none⟩ =
      Except.error (JsError.typeError "Cannot read property 'codeString' of undefined")
    ∧ ∀ pp : PreProps, isFallback (preHandler pp) = false := by
  refine ⟨rfl, fun pp => ?_⟩
  cases hpc : pp.codeChild with
  | none => simp [preHandler, preToCodeBlock, hpc, isFallback]
  | some props => simp [preHandler, preToCodeBlock, hpc, isFallback]

/-- Claim C2 (as stated, refuted): the legacy-export rewrite is *not*
idempotent on every string — on `"\n_export\n_export "` the first
application's match consumes the middle newline as its trailing whitespace,
leaving a second legacy occurrence that only the second application
rewrites. -/
theorem claim_C2_counterexample :
    fixExport (fixExport "\n_export\n_export ") ≠
      fixExport "\n_export\n_export " := by
  decide

/-- Claim C2 (amended): the rewrite applied by the pre handler is idempotent
on every input string in which no two occurrences of the legacy pattern
overlap — that is, whose text does not contain newline, `_export`, newline,
`_export` consecutively.  (The counterexample `"\n_export\n_export "` shows
the restriction is needed.) -/
theorem claim_C2_idempotent_no_overlap (s : String)
    (h : ¬(overlapPat <:+: s.data)) :
    fixExport (fixExport s) = fixExport s :=
  congrArg String.mk (fix_idem_of_no_overlap s.data h)

theorem claim_C2_idempotent_witness :
    ¬(overlapPat <:+: ("\n\n_export const a = 1\n").data)
    ∧ fixExport (fixExport "\n\n_export const a = 1\n") =
        fixExport "\n\n_export const a = 1\n" :=
  ⟨by decide, claim_C2_idempotent_no_overlap "\n\n_export const a = 1\n" (by decide)⟩

/-- Claim C3: (i) every code string containing the legacy pattern (newline,
newline, `_export`, space) is rewritten so that the output contains the
corrected pattern (newline, newline, `export`, space) — the newlines and the
trailing space are preserved and `_export` becomes `export`; (ii) a string
with no occurrence of `_export` preceded by a newline and followed by a
whitespace character is left unchanged. -/
theorem claim_C3_rewrite_correct :
    (∀ l : List Char, specLegacyPat <:+: l → specFixedPat <:+: fixExportAux l)
    ∧ (∀ l : List Char, hasLegacy l = false → fixExportAux l = l) :=
  ⟨fun l h => fix_propagates l.length l (Nat.le_refl _) h, fix_of_no_legacy⟩

theorem claim_C3_rewrite_witness :
    specFixedPat <:+: fixExportAux ("\n\n_export x").data
    ∧ fixExportAux ("var a = 1").data = ("var a = 1").data :=
  ⟨claim_C3_rewrite_correct.1 _ (by decide), claim_C3_rewrite_correct.2 _ (by decide)⟩

/-- Claim C4: a ContentRecord without a banner produces a page with no
banner block at all (no banner element, empty or otherwise), and the rest of
the page is produced as usual — adding a banner to the same record only
inserts the banner block and changes nothing else. -/
theorem claim_C4_no_banner_block (config : SiteConfig) (site : SiteData) (mdx : MdxNode)
    (h : mdx.frontmatter.banner = none) :
    (renderPost config site mdx).all (fun blk => !blk.isBanner) = true
    ∧ ∀ b : BannerImage,
        (renderPost config site
            { mdx with frontmatter := { mdx.frontmatter with banner := some b } }).filter
            (fun blk => !blk.isBanner) =
          renderPost config site mdx := by
  constructor
  · rcases hd : strVal mdx.frontmatter.date with - | d <;>
      rcases hv : strVal mdx.frontmatter.video_url with - | u <;>
      simp [renderPost, h, hd, hv, Block.isBanner]
  · intro b
    rcases hd : strVal mdx.frontmatter.date with - | d <;>
      rcases hv : strVal mdx.frontmatter.video_url with - | u <;>
      simp [renderPost, h, hd, hv, Block.isBanner]

theorem claim_C4_no_banner_witness :
    (renderPost websiteConfig ⟨["react"]⟩
        ⟨⟨"A", some "January 01, 2017", none, none, none, "a"⟩, "body"⟩).all
      (fun blk => !blk.isBanner) = true
    ∧ (renderPost websiteConfig ⟨["react"]⟩
        ⟨⟨"A", some "January 01, 2017", some ⟨⟨⟨"img"⟩⟩⟩, none, none, "a"⟩, "body"⟩).filter
        (fun blk => !blk.isBanner) =
      renderPost websiteConfig ⟨["react"]⟩
        ⟨⟨"A", some "January 01, 2017", none, none, none, "a"⟩, "body"⟩ :=
  ⟨(claim_C4_no_banner_block websiteConfig ⟨["react"]⟩
      ⟨⟨"A", some "January 01, 2017", none, none, none, "a"⟩, "body"⟩ rfl).1,
    (claim_C4_no_banner_block websiteConfig ⟨["react"]⟩
      ⟨⟨"A", some "January 01, 2017", none, none, none, "a"⟩, "body"⟩ rfl).2 ⟨⟨⟨"img"⟩⟩⟩⟩

/-- Claim C5: the video-callout block of the produced page — if `video_url`
is set (truthy) and `video_teaser` is not, the page contains the callout
without a teaser paragraph; if neither is set, the page contains no callout
at all; if both are set, the callout carries the teaser text. -/
theorem claim_C5_video_callout (config : SiteConfig) (site : SiteData) (mdx : MdxNode) :
    (∀ u, strVal mdx.frontmatter.video_url = some u →
        strVal mdx.frontmatter.video_teaser = none →
        (renderPost config site mdx).filter Block.isVideo = [Block.videoCallout u none])
    ∧ (strVal mdx.frontmatter.video_url = none →
        strVal mdx.frontmatter.video_teaser = none →
        (renderPost config site mdx).filter Block.isVideo = [])
    ∧ (∀ u t, strVal mdx.frontmatter.video_url = some u →
        strVal mdx.frontmatter.video_teaser = some t →
        (renderPost config site mdx).filter Block.isVideo =
          [Block.videoCallout u (some t)]) := by
  refine ⟨fun u hu ht => ?_, fun hu _ => ?_, fun u t hu ht => ?_⟩
  · rcases hd : strVal mdx.frontmatter.date with - | d <;>
      rcases hb : mdx.frontmatter.banner with - | b <;>
      simp [renderPost, hd, hb, hu, ht, Block.isVideo]
  · rcases hd : strVal mdx.frontmatter.date with - | d <;>
      rcases hb : mdx.frontmatter.banner with - | b <;>
      simp [renderPost, hd, hb, hu, Block.isVideo]
  · rcases hd : strVal mdx.frontmatter.date with - | d <;>
      rcases hb : mdx.frontmatter.banner with - | b <;>
      simp [renderPost, hd, hb, hu, ht, Block.isVideo]

theorem claim_C5_video_witness :
    (renderPost websiteConfig ⟨["react"]⟩
        ⟨⟨"A", none, none, some "https://youtu.be/x", none, "a"⟩, "body"⟩).filter
      Block.isVideo = [Block.videoCallout "https://youtu.be/x" none]
    ∧ (renderPost websiteConfig ⟨["react"]⟩
        ⟨⟨"A", none, none, none, none, "a"⟩, "body"⟩).filter Block.isVideo = []
    ∧ (renderPost websiteConfig ⟨["react"]⟩
        ⟨⟨"A", none, none, some "https://youtu.be/x", some "watch it", "a"⟩,
          "body"⟩).filter Block.isVideo =
      [Block.videoCallout "https://youtu.be/x" (some "watch it")] :=
  ⟨(claim_C5_video_callout websiteConfig ⟨["react"]⟩
      ⟨⟨"A", none, none, some "https://youtu.be/x", none, "a"⟩, "body"⟩).1
      "https://youtu.be/x" (by decide) (by decide),
    (claim_C5_video_callout websiteConfig ⟨["react"]⟩
      ⟨⟨"A", none, none, none, none, "a"⟩, "body"⟩).2.1 rfl rfl,
    (claim_C5_video_callout websiteConfig ⟨["react"]⟩
      ⟨⟨"A", none, none, some "https://youtu.be/x", some "watch it", "a"⟩, "body"⟩).2.2
      "https://youtu.be/x" "watch it" (by decide) (by decide)⟩

/-- Claim C6: the component mapping table is a pure function whose domain of
intercepted node kinds is exactly h1, h2, p and pre — h1 maps to Title, h2
to Subtitle, p to Paragraph and pre to the code handler; every other node
kind (list items, blockquotes, …) has no entry and is left to the engine's
default rendering. -/
theorem claim_C6_component_table :
    (∀ k : MdxTag, (mdxComponents k).isSome = true ↔
        (k = MdxTag.h1 ∨ k = MdxTag.h2 ∨ k = MdxTag.p ∨ k = MdxTag.pre))
    ∧ mdxComponents MdxTag.h1 = some MappedComponent.title
    ∧ mdxComponents MdxTag.h2 = some MappedComponent.subtitle
    ∧ mdxComponents MdxTag.p = some MappedComponent.paragraph
    ∧ mdxComponents MdxTag.pre = some MappedComponent.codeBlock
    ∧ mdxComponents MdxTag.li = none
    ∧ mdxComponents MdxTag.blockquote = none := by
  refine ⟨fun k => ?_, rfl, rfl, rfl, rfl, rfl, rfl⟩
  cases k <;> simp [mdxComponents]

/-- Claim C7: every produced page ends with the share block, parameterized
by exactly the record's slug and title, whose URL is the configured
canonical site URL, `/`, the slug, `/`. -/
theorem claim_C7_share_block_last (config : SiteConfig) (site : SiteData) (mdx : MdxNode) :
    (renderPost config site mdx).getLast? =
      some (Block.shareBlock (config.siteUrl ++ "/" ++ mdx.frontmatter.slug ++ "/")
        mdx.frontmatter.title config.twitterHandle) := by
  rcases hd : strVal mdx.frontmatter.date with - | d <;>
    rcases hb : mdx.frontmatter.banner with - | b <;>
    rcases hv : strVal mdx.frontmatter.video_url with - | u <;>
    simp [renderPost, hd, hb, hv]

/-- Claim C9: the Footer renders the copyright line exactly when the author
prop is truthy (absent author: the line is omitted entirely, not rendered
with an empty author), and the rendered text is the author name, the
copyright sign and the current calendar year read from the system clock —
so two renders of identical props in different years produce different
output. -/
theorem claim_C9_footer_copyright :
    (∀ (author : Option String) (noSub isPost : Bool) (year : Nat),
        (footerRender author noSub isPost year).copyright =
          (strVal author).map (fun a => a ++ " © " ++ toString year))
    ∧ (∀ (noSub isPost : Bool) (year : Nat),
        (footerRender none noSub isPost year).copyright = none)
    ∧ (footerRender (some "Joe Fiorini") false true 2017).copyright =
        some "Joe Fiorini © 2017"
    ∧ (footerRender (some "Joe Fiorini") false true 2018).copyright =
        some "Joe Fiorini © 2018" :=
  ⟨fun _ _ _ _ => rfl, fun _ _ _ => rfl, by decide, by decide⟩

/-- Claim C10: the Footer renders the subscribe-form section exactly when
`noSubscribeForm` is falsy, and the HireMe block appears exactly when
`isPost` is truthy and `noSubscribeForm` is falsy — never when
`noSubscribeForm` is set. -/
theorem claim_C10_footer_hireme :
    ∀ (author : Option String) (noSub isPost : Bool) (year : Nat),
      (footerRender author noSub isPost year).subscribe.isSome = !noSub
      ∧ (footerRender author noSub isPost year).showsHireMe = (isPost && !noSub) := by
  intro author noSub isPost year
  cases noSub <;> cases isPost <;>
    simp [footerRender, FooterView.showsHireMe]

/-- Claim C8 (the generator is modelled from the specification): for
published records with pairwise distinct dates, the generator emits one page
per record; each page's next link is a record of the generated set, namely
the one with the smallest date strictly greater than its own; a page lacks a
next link exactly when its record's date is the latest (both directions);
each previous link is a record of the generated set; and a page lacks a
previous link exactly when its record's date is the earliest (both
directions). -/
theorem claim_C8_neighbor_links (rs : List ContentRecord)
    (hpub : ∀ r ∈ rs, r.published = true)
    (hnd : (rs.map ContentRecord.date).Nodup) :
    (generatePages rs).length = rs.length
    ∧ (∀ p ∈ generatePages rs, ∀ nx, p.next = some nx →
        (∃ q ∈ generatePages rs, q.record = nx)
        ∧ p.record.date < nx.date
        ∧ ∀ q ∈ generatePages rs, p.record.date < q.record.date →
            nx.date ≤ q.record.date)
    ∧ (∀ p ∈ generatePages rs, p.next = none →
        ∀ q ∈ generatePages rs, q.record.date ≤ p.record.date)
    ∧ (∀ p ∈ generatePages rs,
        (∀ q ∈ generatePages rs, q.record.date ≤ p.record.date) → p.next = none)
    ∧ (∀ p ∈ generatePages rs, ∀ m, p.prev = some m →
        ∃ q ∈ generatePages rs, q.record = m)
    ∧ (∀ p ∈ generatePages rs,
        (∀ q ∈ generatePages rs, p.record.date ≤ q.record.date) → p.prev = none)
    ∧ (∀ p ∈ generatePages rs, p.prev = none →
        ∀ q ∈ generatePages rs, p.record.date ≤ q.record.date) :=
  generatePages_spec rs hpub hnd

theorem claim_C8_neighbor_witness :
    (generatePages [⟨"a", 20170101, true⟩, ⟨"b", 20170201, true⟩]).length =
      ([⟨"a", 20170101, true⟩, ⟨"b", 20170201, true⟩] : List ContentRecord).length
    ∧ generatePages [⟨"a", 20170101, true⟩, ⟨"b", 20170201, true⟩] =
        [⟨⟨"a", 20170101, true⟩, none, some ⟨"b", 20170201, true⟩⟩,
          ⟨⟨"b", 20170201, true⟩, some ⟨"a", 20170101, true⟩, none⟩] :=
  ⟨(claim_C8_neighbor_links [⟨"a", 20170101, true⟩, ⟨"b", 20170201, true⟩]
      (by decide) (by decide)).1,
    by decide⟩

end Joefiorini
